import Mathlib

/-!
# Verification of the translation-expansion pipeline

A shallow embedding of the repository's core logic:

* the current expander `expandTranslations` (main script, `expandTranslations`
  together with its helpers), which builds a first-wins base index keyed by
  Base Code, back-fills missing fields on variant records from their base, and
  then synthesizes missing variant records from the Variation Table;
* the legacy expander `expandTranslationsLegacy` (legacy script), which has no
  back-fill pass and looks the base record up by exact `language` match;
* the loader's qualifying-file selection (`loadJSONFiles`), which keeps `.json`
  files except `package.json` and fails on the first unparseable file;
* the validator (`validateDirectory` / `validateJSON`), which keeps every
  `.json` file and records per-file results instead of failing.

Modelling conventions:

* A JS object is modelled as an association list `Record` with the object's
  insertion order; `t[k] = v` updates in place when `k` is present and appends
  otherwise (`setKey`), `k in t` is `hasKey`, property access is `lookupKey`.
* `t.language` on a record without a `language` property is `undefined` in JS
  and makes the expander throw a `TypeError` at `t.language.split('-')`; the
  embedding returns `none` for exactly those inputs (`expandTranslations` is
  `Option`-valued).  The legacy expander never dereferences a possibly-missing
  property (it only compares `t.language` with `===`), so it is total.
* JS template interpolation renders `undefined` as the string `"undefined"`;
  the base's `language_name` is read with `(lookupKey base "language_name").getD
  "undefined"` accordingly.
* The JS `Set` of existing languages is modelled as the list of the records'
  `language` properties (`Option String`, since the property may be absent);
  `Set.has` is list membership.
* `JSON.parse` is the platform parser, not part of the repository source; it is
  modelled below by a syntactic JSON checker (`jsonParse`).
-/

/-- A JS object with string values: field names to values, in insertion order. -/
abbrev Record := List (String × String)

/-- Property access `t[k]`: the value of the first (unique, for JS objects)
binding of `k`. -/
def lookupKey : Record → String → Option String
  | [], _ => none
  | (k', v) :: rest, k => if k' = k then some v else lookupKey rest k

/-- The JS `k in t` presence test. -/
def hasKey (t : Record) (k : String) : Bool :=
  (lookupKey t k).isSome

/-- The JS assignment `t[k] = v`: update in place when present, append when
absent. -/
def setKey : Record → String → String → Record
  | [], k, v => [(k, v)]
  | (k', v') :: rest, k, v =>
    if k' = k then (k', v) :: rest else (k', v') :: setKey rest k v

/-- `s.split('-')[0]`: the part of a locale tag before its first `-`, or the
whole string when there is none (the Base Code of a locale tag). -/
def baseCodeOf (s : String) : String :=
  String.mk (s.data.takeWhile (fun c => c ≠ '-'))

/-! ## The current expander (main script, `expandTranslations`) -/

/-- One step of the back-fill loop body `if (!(key in t)) t[key] = base[key]`:
copy the binding when its key is absent. -/
def backfillStep (t : Record) (kv : String × String) : Record :=
  if hasKey t kv.1 then t else t ++ [kv]

/-- `for (const key of Object.keys(base)) if (!(key in t)) t[key] = base[key]`:
copy every field of `base` that is absent on `t`. -/
def backfillFrom (base t : Record) : Record :=
  base.foldl backfillStep t

/-- The base index `baseTranslations[code]`: the loop
`for (const t of translations) if (!baseTranslations[baseCode]) ...` registers
the first record of each Base Code, so the lookup is `find?` on the Base Code
of the record's `language`.  (A record whose `language` is absent makes the JS
loop throw; `expandTranslations` guards that case, so the `Option.map` here is
never the deciding factor on the guarded domain.) -/
def findBase (translations : List Record) (code : String) : Option Record :=
  translations.find? (fun t => (lookupKey t "language").map baseCodeOf == some code)

/-- The back-fill pass applied to one input record: a record whose `language`
differs from its Base Code and whose Base Code has an index entry receives the
index entry's missing fields; every other record is unchanged.  (The in-place
JS mutation is benign: an index entry is the first record of its Base Code, so
its own back-fill copies from itself and changes nothing, hence the index never
changes while the pass runs.) -/
def backfillRecord (idx : String → Option Record) (t : Record) : Record :=
  match lookupKey t "language" with
  | none => t
  | some lang =>
    match idx (baseCodeOf lang) with
    | none => t
    | some base => if lang = baseCodeOf lang then t else backfillFrom base t

/-- The synthesized variant record
`{...baseTranslation, language: variant, language_name: ...}`. -/
def synthRecord (base : Record) (variant : String) : Record :=
  setKey (setKey base "language" variant) "language_name"
    (if variant = baseCodeOf variant then
      (lookupKey base "language_name").getD "undefined"
    else
      (lookupKey base "language_name").getD "undefined" ++ " (" ++ variant ++ ")")

/-- A Variation Table: family name to ordered list of variant codes, in entry
order (`Object.entries`). -/
abbrev VarTable := List (String × List String)

/-- The variant codes the generation pass visits, in visit order: the nested
`for` loops over `Object.entries(variations)` and each family's list visit the
concatenation of the families' lists (the family name is not used by the loop
body). -/
def allVariants (variations : VarTable) : List String :=
  (variations.map Prod.snd).flatten

/-- The generation pass: skip a variant code already in the existing-language
set, otherwise synthesize a record from the base index entry of its Base Code
(if any) and mark the code as existing. -/
def genVariants (idx : String → Option Record) :
    List (Option String) → List String → List Record
  | _, [] => []
  | existing, v :: vs =>
    if some v ∈ existing then
      genVariants idx existing vs
    else
      match idx (baseCodeOf v) with
      | some base => synthRecord base v :: genVariants idx (some v :: existing) vs
      | none => genVariants idx existing vs

/-- The body of `expandTranslations` on the domain where no record's `language`
is missing: back-filled input records in input order, then the synthesized
variants in table order. -/
def expandCore (translations : List Record) (variations : VarTable) : List Record :=
  translations.map (backfillRecord (findBase translations)) ++
    genVariants (findBase translations)
      (translations.map (fun t => lookupKey t "language"))
      (allVariants variations)

/-- The current expander.  JS throws a `TypeError` (at `t.language.split`)
exactly when some input record lacks the `language` property; the embedding
returns `none` there and the pure result otherwise. -/
def expandTranslations (translations : List Record) (variations : VarTable) :
    Option (List Record) :=
  if ∀ t ∈ translations, hasKey t "language" then
    some (expandCore translations variations)
  else none

/-! ## The legacy expander (legacy script, `expandTranslations`) -/

/-- The legacy base lookup `translations.find(t => t.language === baseCode)`:
exact match on the `language` property (an absent property compares unequal to
every string, so this never throws). -/
def findBaseLegacy (translations : List Record) (code : String) : Option Record :=
  translations.find? (fun t => lookupKey t "language" == some code)

/-- The legacy generation pass: as `genVariants`, but the base is looked up by
exact `language` match in the original input on every iteration. -/
def genVariantsLegacy (translations : List Record) :
    List (Option String) → List String → List Record
  | _, [] => []
  | existing, v :: vs =>
    if some v ∈ existing then
      genVariantsLegacy translations existing vs
    else
      match findBaseLegacy translations (baseCodeOf v) with
      | some base =>
        synthRecord base v :: genVariantsLegacy translations (some v :: existing) vs
      | none => genVariantsLegacy translations existing vs

/-- The legacy expander: the input records unchanged (no back-fill pass),
followed by the synthesized variants.  Total: it never dereferences a
possibly-missing property. -/
def expandTranslationsLegacy (translations : List Record) (variations : VarTable) :
    List Record :=
  translations ++
    genVariantsLegacy translations
      (translations.map (fun t => lookupKey t "language"))
      (allVariants variations)

/-! ## The platform JSON parser, modelled

`JSON.parse` is the JavaScript runtime's parser, not code of this repository.
Modelled from the spec: the Loader/Validator "parses each qualifying file as
structured (array-of-record) data" and a file "containing a trailing comma" is
a parse failure — so the model is a syntactic checker for the JSON grammar
(whitespace, strings with backslash escapes, numbers accepted leniently,
`true`/`false`/`null`, arrays and objects with no trailing commas), with a
fuel argument bounding recursion depth by the input size. -/

/-- JSON insignificant whitespace. -/
def isJsonWs (c : Char) : Bool :=
  c = ' ' || c = '\t' || c = '\n' || c = '\r'

/-- Drop leading JSON whitespace. -/
def skipWs (s : List Char) : List Char :=
  s.dropWhile isJsonWs

/-- Scan a JSON string body after its opening quote: a backslash escapes the
next character; the closing quote ends the string; running out of input is a
parse failure. -/
def parseStringBody : List Char → Option (List Char)
  | [] => none
  | '"' :: rest => some rest
  | '\\' :: _ :: rest => parseStringBody rest
  | _ :: rest => parseStringBody rest

/-- Characters that may continue a JSON number (lenient model of the platform
parser's number grammar). -/
def isNumChar (c : Char) : Bool :=
  c.isDigit || c = '.' || c = 'e' || c = 'E' || c = '+' || c = '-'

/-- Accept a number: an optional leading minus, then at least one digit, then a
lenient run of number characters. -/
def parseNumber : List Char → Option (List Char)
  | '-' :: c :: rest =>
    if c.isDigit then some ((c :: rest).dropWhile isNumChar) else none
  | c :: rest =>
    if c.isDigit then some ((c :: rest).dropWhile isNumChar) else none
  | [] => none

mutual

/-- Accept one JSON value and return the unconsumed input. -/
def parseValue : Nat → List Char → Option (List Char)
  | 0, _ => none
  | fuel + 1, s =>
    match skipWs s with
    | '"' :: rest => parseStringBody rest
    | '[' :: rest =>
      (match skipWs rest with
       | ']' :: r => some r
       | _ => parseArrayItems fuel rest)
    | '{' :: rest =>
      (match skipWs rest with
       | '}' :: r => some r
       | _ => parseObjectItems fuel rest)
    | 't' :: 'r' :: 'u' :: 'e' :: rest => some rest
    | 'f' :: 'a' :: 'l' :: 's' :: 'e' :: rest => some rest
    | 'n' :: 'u' :: 'l' :: 'l' :: rest => some rest
    | other => parseNumber other

/-- Accept the non-empty element list of an array and its closing bracket. -/
def parseArrayItems : Nat → List Char → Option (List Char)
  | 0, _ => none
  | fuel + 1, s =>
    match parseValue fuel s with
    | none => none
    | some rest =>
      match skipWs rest with
      | ',' :: r => parseArrayItems fuel r
      | ']' :: r => some r
      | _ => none

/-- Accept the non-empty member list of an object and its closing brace. -/
def parseObjectItems : Nat → List Char → Option (List Char)
  | 0, _ => none
  | fuel + 1, s =>
    match skipWs s with
    | '"' :: rest =>
      (match parseStringBody rest with
       | none => none
       | some afterKey =>
         match skipWs afterKey with
         | ':' :: afterColon =>
           (match parseValue fuel afterColon with
            | none => none
            | some afterVal =>
              match skipWs afterVal with
              | ',' :: r => parseObjectItems fuel r
              | '}' :: r => some r
              | _ => none)
         | _ => none)
    | _ => none

end

/-- `JSON.parse(content)` succeeds: one JSON value followed only by
whitespace. -/
def jsonParse (s : String) : Bool :=
  match parseValue (2 * s.data.length + 2) s.data with
  | some rest => (skipWs rest).isEmpty
  | none => false

/-! ## The Loader (main script, `loadJSONFiles`) -/

/-- JS `s.endsWith(post)`: the last `post.length` characters of `s` are
`post` (false when `s` is shorter). -/
def strEndsWith (s post : String) : Bool :=
  s.data.drop (s.data.length - post.data.length) == post.data

/-- The loader's qualifying-file selection:
`files.filter(file => file.endsWith('.json') && file !== 'package.json')`. -/
def loaderJsonFiles (files : List String) : List String :=
  files.filter (fun f => strEndsWith f ".json" && f != "package.json")

/-- The loader's per-file loop: parse each qualifying file in order; the first
parse failure throws `Invalid JSON file: <name>`, aborting the whole load. -/
def loadJSONFilesGo : List (String × String) → Except String (List (String × String))
  | [] => Except.ok []
  | fc :: rest =>
    if jsonParse fc.2 then
      match loadJSONFilesGo rest with
      | Except.ok out => Except.ok (fc :: out)
      | Except.error e => Except.error e
    else Except.error ("Invalid JSON file: " ++ fc.1)

/-- `loadJSONFiles`, over a directory listing given as (file name, raw
content) pairs. -/
def loadJSONFiles (files : List (String × String)) :
    Except String (List (String × String)) :=
  loadJSONFilesGo
    (files.filter (fun fc => strEndsWith fc.1 ".json" && fc.1 != "package.json"))

/-! ## The Validator (`validate.js`) -/

/-- One validation result: `{valid: true, file}` or `{valid: false, file,
error}`. -/
structure VResult where
  valid : Bool
  file : String
  error : Option String
deriving DecidableEq, Repr

/-- `validateJSON`: parse one file's content, catching the failure as a result
entry (the JS `catch` turns any parse error into `{valid: false, file, error:
error.message}`; the platform's message text is modelled by a fixed non-empty
message). -/
def validateJSON (filePath : String) (content : String) : VResult :=
  if jsonParse content then ⟨true, filePath, none⟩
  else ⟨false, filePath, some "Unexpected token in JSON"⟩

/-- The validator's qualifying-file selection:
`files.filter(f => f.endsWith('.json'))` — note: no `package.json`
exclusion. -/
def validatorJsonFiles (files : List String) : List String :=
  files.filter (fun f => strEndsWith f ".json")

/-- `path.join(dirPath, f)` for the simple relative paths the scripts use. -/
def pathJoin (dir f : String) : String :=
  dir ++ "/" ++ f

/-- `validateDirectory`, over a directory listing given as (file name, raw
content) pairs: one result entry per `.json` file, in listing order. -/
def validateDirectory (dirPath : String) (files : List (String × String)) :
    List VResult :=
  (files.filter (fun fc => strEndsWith fc.1 ".json")).map
    (fun fc => validateJSON (pathJoin dirPath fc.1) fc.2)

/-! ## Basic lemmas about the record operations -/

theorem hasKey_nil (k : String) : hasKey [] k = false := rfl

theorem hasKey_cons (k' v : String) (rest : Record) (k : String) :
    hasKey ((k', v) :: rest) k = ((k' == k) || hasKey rest k) := by
  by_cases h : k' = k <;> simp [hasKey, lookupKey, h]

theorem lookupKey_nil (k : String) : lookupKey [] k = none := rfl

theorem lookupKey_cons (k' v : String) (rest : Record) (k : String) :
    lookupKey ((k', v) :: rest) k = if k' = k then some v else lookupKey rest k := rfl

theorem hasKey_eq_false_iff (t : Record) (k : String) :
    hasKey t k = false ↔ lookupKey t k = none := by
  simp only [hasKey]
  cases lookupKey t k <;> simp

theorem hasKey_of_lookupKey (t : Record) (k v : String)
    (h : lookupKey t k = some v) : hasKey t k = true := by
  simp [hasKey, h]

theorem lookupKey_append_of_hasKey (t l : Record) (k : String)
    (h : hasKey t k = true) : lookupKey (t ++ l) k = lookupKey t k := by
  induction t with
  | nil => simp [hasKey_nil] at h
  | cons kv rest ih =>
    obtain ⟨k1, v1⟩ := kv
    by_cases hk : k1 = k
    · simp [List.cons_append, lookupKey_cons, hk]
    · rw [hasKey_cons] at h
      have hk2 : (k1 == k) = false := by simp [hk]
      rw [hk2, Bool.false_or] at h
      simp [List.cons_append, lookupKey_cons, hk, ih h]

theorem lookupKey_append_of_not_hasKey (t l : Record) (k : String)
    (h : hasKey t k = false) : lookupKey (t ++ l) k = lookupKey l k := by
  induction t with
  | nil => rw [List.nil_append]
  | cons kv rest ih =>
    obtain ⟨k1, v1⟩ := kv
    rw [hasKey_cons] at h
    simp only [Bool.or_eq_false_iff, beq_eq_false_iff_ne] at h
    simp [List.cons_append, lookupKey_cons, h.1, ih h.2]

theorem hasKey_append (t l : Record) (k : String) :
    hasKey (t ++ l) k = (hasKey t k || hasKey l k) := by
  induction t with
  | nil => simp [hasKey_nil]
  | cons kv rest ih =>
    obtain ⟨k1, v1⟩ := kv
    rw [List.cons_append, hasKey_cons, hasKey_cons, ih, Bool.or_assoc]

theorem lookupKey_setKey_self (t : Record) (k v : String) :
    lookupKey (setKey t k v) k = some v := by
  induction t with
  | nil => simp [setKey, lookupKey_cons]
  | cons kv rest ih =>
    obtain ⟨k1, v1⟩ := kv
    by_cases hk : k1 = k
    · simp [setKey, hk, lookupKey_cons]
    · simp [setKey, hk, lookupKey_cons, ih]

theorem lookupKey_setKey_other (t : Record) (k v k' : String) (h : k' ≠ k) :
    lookupKey (setKey t k v) k' = lookupKey t k' := by
  induction t with
  | nil =>
    have hne : ¬k = k' := fun hh => h hh.symm
    simp [setKey, lookupKey_cons, lookupKey_nil, hne]
  | cons kv rest ih =>
    obtain ⟨k1, v1⟩ := kv
    by_cases hk : k1 = k
    · subst hk
      have hne : ¬k1 = k' := fun hh => h hh.symm
      simp [setKey, lookupKey_cons, hne]
    · simp [setKey, hk, lookupKey_cons, ih]

theorem hasKey_setKey (t : Record) (k v k' : String) :
    hasKey (setKey t k v) k' = ((k == k') || hasKey t k') := by
  by_cases h : k = k'
  · subst h
    simp [hasKey, lookupKey_setKey_self]
  · have h' : k' ≠ k := fun hh => h hh.symm
    simp [hasKey, lookupKey_setKey_other t k v k' h', h]

theorem hasKey_backfillStep (t : Record) (kv : String × String) (k : String) :
    hasKey (backfillStep t kv) k = (hasKey t k || (kv.1 == k)) := by
  obtain ⟨k1, v1⟩ := kv
  unfold backfillStep
  by_cases h : hasKey t k1 = true
  · simp only [h, if_true]
    by_cases hk : k1 = k
    · subst hk; simp [h]
    · simp [hk]
  · rw [Bool.not_eq_true] at h
    simp only [h, Bool.false_eq_true, if_false]
    rw [hasKey_append, hasKey_cons, hasKey_nil, Bool.or_false]

theorem lookupKey_backfillStep_of_hasKey (t : Record) (kv : String × String)
    (k : String) (h : hasKey t k = true) :
    lookupKey (backfillStep t kv) k = lookupKey t k := by
  unfold backfillStep
  by_cases hp : hasKey t kv.1 = true
  · simp [hp]
  · simp only [hp, if_false, Bool.not_eq_true] at *
    exact lookupKey_append_of_hasKey t _ k h

theorem backfillFrom_nil (t : Record) : backfillFrom [] t = t := rfl

theorem backfillFrom_cons (kv : String × String) (rest : Record) (t : Record) :
    backfillFrom (kv :: rest) t = backfillFrom rest (backfillStep t kv) := rfl

theorem hasKey_backfillFrom (b t : Record) (k : String) :
    hasKey (backfillFrom b t) k = (hasKey t k || hasKey b k) := by
  induction b generalizing t with
  | nil => simp [backfillFrom_nil, hasKey_nil]
  | cons kv rest ih =>
    rw [backfillFrom_cons, ih, hasKey_backfillStep, hasKey_cons,
      Bool.or_assoc]

theorem lookupKey_backfillFrom_of_hasKey (b t : Record) (k : String)
    (h : hasKey t k = true) :
    lookupKey (backfillFrom b t) k = lookupKey t k := by
  induction b generalizing t with
  | nil => simp [backfillFrom_nil]
  | cons kv rest ih =>
    rw [backfillFrom_cons]
    have h' : hasKey (backfillStep t kv) k = true := by
      simp [hasKey_backfillStep, h]
    rw [ih _ h', lookupKey_backfillStep_of_hasKey t kv k h]

theorem backfillFrom_of_all_hasKey (b t : Record)
    (h : ∀ kv ∈ b, hasKey t kv.1 = true) : backfillFrom b t = t := by
  induction b with
  | nil => simp [backfillFrom_nil]
  | cons kv rest ih =>
    rw [backfillFrom_cons]
    have hstep : backfillStep t kv = t := by
      simp [backfillStep, h kv (by simp)]
    rw [hstep]
    exact ih (fun kv' hkv' => h kv' (by simp [hkv']))

theorem lookupKey_backfillFrom_of_not_hasKey (b t : Record) (k : String)
    (h : hasKey t k = false) :
    lookupKey (backfillFrom b t) k = lookupKey b k := by
  induction b generalizing t with
  | nil =>
    rw [backfillFrom_nil, (hasKey_eq_false_iff t k).mp h]
    rfl
  | cons kv rest ih =>
    obtain ⟨k1, v1⟩ := kv
    rw [backfillFrom_cons]
    by_cases hk : k1 = k
    · have habs : hasKey t k1 = false := by rw [hk]; exact h
      have hstep : backfillStep t (k1, v1) = t ++ [(k1, v1)] := by
        simp [backfillStep, habs]
      have hpres : hasKey (t ++ [(k1, v1)]) k = true := by
        rw [hasKey_append, hasKey_cons, hasKey_nil]
        simp [hk]
      rw [hstep, lookupKey_backfillFrom_of_hasKey _ _ _ hpres,
        lookupKey_append_of_not_hasKey t _ k h, lookupKey_cons, lookupKey_cons]
      simp [hk]
    · have h' : hasKey (backfillStep t (k1, v1)) k = false := by
        rw [hasKey_backfillStep, h]
        simp [hk]
      rw [ih _ h', lookupKey_cons]
      simp [hk]

theorem backfillRecord_of_lang_none (idx : String → Option Record) (t : Record)
    (h : lookupKey t "language" = none) : backfillRecord idx t = t := by
  simp only [backfillRecord, h]

theorem backfillRecord_of_idx_none (idx : String → Option Record) (t : Record)
    (lang : String) (h : lookupKey t "language" = some lang)
    (hb : idx (baseCodeOf lang) = none) : backfillRecord idx t = t := by
  simp only [backfillRecord, h, hb]

theorem backfillRecord_of_self (idx : String → Option Record) (t : Record)
    (lang : String) (h : lookupKey t "language" = some lang)
    (hc : lang = baseCodeOf lang) : backfillRecord idx t = t := by
  simp only [backfillRecord, h]
  cases hb : idx (baseCodeOf lang) with
  | none => rfl
  | some base =>
    show (if lang = baseCodeOf lang then t else backfillFrom base t) = t
    exact if_pos hc

theorem backfillRecord_of_variant (idx : String → Option Record) (t : Record)
    (lang : String) (base : Record) (h : lookupKey t "language" = some lang)
    (hb : idx (baseCodeOf lang) = some base) (hc : lang ≠ baseCodeOf lang) :
    backfillRecord idx t = backfillFrom base t := by
  simp only [backfillRecord, h, hb, if_neg hc]

theorem lookupKey_backfillRecord_of_hasKey (idx : String → Option Record)
    (t : Record) (k : String) (h : hasKey t k = true) :
    lookupKey (backfillRecord idx t) k = lookupKey t k := by
  cases hl : lookupKey t "language" with
  | none => rw [backfillRecord_of_lang_none idx t hl]
  | some lang =>
    by_cases hc : lang = baseCodeOf lang
    · rw [backfillRecord_of_self idx t lang hl hc]
    · cases hb : idx (baseCodeOf lang) with
      | none => rw [backfillRecord_of_idx_none idx t lang hl hb]
      | some base =>
        rw [backfillRecord_of_variant idx t lang base hl hb hc]
        exact lookupKey_backfillFrom_of_hasKey _ _ _ h

theorem hasKey_backfillRecord_of_hasKey (idx : String → Option Record)
    (t : Record) (k : String) (h : hasKey t k = true) :
    hasKey (backfillRecord idx t) k = true := by
  have hp := lookupKey_backfillRecord_of_hasKey idx t k h
  simp only [hasKey] at h ⊢
  rw [hp]
  exact h

theorem backfillRecord_language (idx : String → Option Record) (t : Record) :
    lookupKey (backfillRecord idx t) "language" = lookupKey t "language" := by
  cases hl : lookupKey t "language" with
  | none =>
    rw [backfillRecord_of_lang_none idx t hl]
    exact hl
  | some lang =>
    rw [lookupKey_backfillRecord_of_hasKey idx t _ (hasKey_of_lookupKey t _ _ hl)]
    exact hl

theorem lookupKey_synthRecord_language (b : Record) (v : String) :
    lookupKey (synthRecord b v) "language" = some v := by
  unfold synthRecord
  rw [lookupKey_setKey_other _ _ _ _ (by decide), lookupKey_setKey_self]

theorem lookupKey_synthRecord_language_name (b : Record) (v : String) :
    lookupKey (synthRecord b v) "language_name" =
      some (if v = baseCodeOf v then (lookupKey b "language_name").getD "undefined"
        else (lookupKey b "language_name").getD "undefined" ++ " (" ++ v ++ ")") := by
  unfold synthRecord
  rw [lookupKey_setKey_self]

theorem hasKey_synthRecord_of (b : Record) (v k : String)
    (h : hasKey b k = true) : hasKey (synthRecord b v) k = true := by
  unfold synthRecord
  simp [hasKey_setKey, h]

/-! ## Lemmas about the generation pass -/

theorem genVariants_nil (idx : String → Option Record) (ex : List (Option String)) :
    genVariants idx ex [] = [] := rfl

theorem genVariants_cons_mem (idx : String → Option Record)
    (ex : List (Option String)) (v : String) (vs : List String)
    (h : some v ∈ ex) :
    genVariants idx ex (v :: vs) = genVariants idx ex vs := by
  simp only [genVariants, if_pos h]

theorem genVariants_cons_none (idx : String → Option Record)
    (ex : List (Option String)) (v : String) (vs : List String)
    (h : some v ∉ ex) (hb : idx (baseCodeOf v) = none) :
    genVariants idx ex (v :: vs) = genVariants idx ex vs := by
  simp only [genVariants, if_neg h, hb]

theorem genVariants_cons_some (idx : String → Option Record)
    (ex : List (Option String)) (v : String) (vs : List String) (b : Record)
    (h : some v ∉ ex) (hb : idx (baseCodeOf v) = some b) :
    genVariants idx ex (v :: vs) =
      synthRecord b v :: genVariants idx (some v :: ex) vs := by
  simp only [genVariants, if_neg h, hb]

/-- Every record the generation pass emits is a synthesized variant of a
table code whose Base Code has a base-index entry. -/
theorem genVariants_mem (idx : String → Option Record)
    (ex : List (Option String)) (vs : List String) (r : Record)
    (hr : r ∈ genVariants idx ex vs) :
    ∃ v, v ∈ vs ∧ ∃ b, idx (baseCodeOf v) = some b ∧ r = synthRecord b v := by
  induction vs generalizing ex with
  | nil => simp [genVariants_nil] at hr
  | cons v vs ih =>
    by_cases h : some v ∈ ex
    · rw [genVariants_cons_mem idx ex v vs h] at hr
      obtain ⟨w, hw, hrest⟩ := ih ex hr
      exact ⟨w, by simp [hw], hrest⟩
    · cases hb : idx (baseCodeOf v) with
      | none =>
        rw [genVariants_cons_none idx ex v vs h hb] at hr
        obtain ⟨w, hw, hrest⟩ := ih ex hr
        exact ⟨w, by simp [hw], hrest⟩
      | some b =>
        rw [genVariants_cons_some idx ex v vs b h hb] at hr
        rcases List.mem_cons.mp hr with hr | hr
        · exact ⟨v, by simp, b, hb, hr⟩
        · obtain ⟨w, hw, hrest⟩ := ih (some v :: ex) hr
          exact ⟨w, by simp [hw], hrest⟩

/-- When every table code is already present or has no base-index entry, the
generation pass emits nothing. -/
theorem genVariants_eq_nil (idx : String → Option Record)
    (ex : List (Option String)) (vs : List String)
    (h : ∀ v ∈ vs, some v ∈ ex ∨ idx (baseCodeOf v) = none) :
    genVariants idx ex vs = [] := by
  induction vs with
  | nil => rfl
  | cons v vs ih =>
    have hrest : ∀ w ∈ vs, some w ∈ ex ∨ idx (baseCodeOf w) = none :=
      fun w hw => h w (by simp [hw])
    rcases h v (by simp) with hv | hv
    · rw [genVariants_cons_mem idx ex v vs hv]
      exact ih hrest
    · by_cases hm : some v ∈ ex
      · rw [genVariants_cons_mem idx ex v vs hm]
        exact ih hrest
      · rw [genVariants_cons_none idx ex v vs hm hv]
        exact ih hrest

/-- A table code with a base-index entry ends up existing: it was already in
the existing set, or some emitted record carries it as its `language`. -/
theorem genVariants_covers (idx : String → Option Record)
    (ex : List (Option String)) (vs : List String) (v : String) (b : Record)
    (hv : v ∈ vs) (hb : idx (baseCodeOf v) = some b) :
    some v ∈ ex ∨ ∃ r ∈ genVariants idx ex vs, lookupKey r "language" = some v := by
  induction vs generalizing ex with
  | nil => simp at hv
  | cons w vs ih =>
    by_cases hm : some w ∈ ex
    · rw [genVariants_cons_mem idx ex w vs hm]
      rcases List.mem_cons.mp hv with hv | hv
      · exact Or.inl (hv ▸ hm)
      · exact ih ex hv
    · cases hw : idx (baseCodeOf w) with
      | none =>
        rw [genVariants_cons_none idx ex w vs hm hw]
        rcases List.mem_cons.mp hv with hv | hv
        · subst hv
          rw [hb] at hw
          cases hw
        · exact ih ex hv
      | some bw =>
        rw [genVariants_cons_some idx ex w vs bw hm hw]
        rcases List.mem_cons.mp hv with hv | hv
        · subst hv
          exact Or.inr ⟨synthRecord bw v, by simp,
            lookupKey_synthRecord_language bw v⟩
        · rcases ih (some w :: ex) hv with hin | ⟨r, hr, hlang⟩
          · rcases List.mem_cons.mp hin with hvw | hin
            · rw [hvw]
              exact Or.inr ⟨synthRecord bw w, by simp,
                lookupKey_synthRecord_language bw w⟩
            · exact Or.inl hin
          · exact Or.inr ⟨r, by simp [hr], hlang⟩

/-- The languages of the emitted records: pairwise distinct, and fresh with
respect to the existing set. -/
theorem genVariants_langs_nodup_fresh (idx : String → Option Record)
    (ex : List (Option String)) (vs : List String) :
    ((genVariants idx ex vs).map (fun r => lookupKey r "language")).Nodup ∧
      ∀ x ∈ (genVariants idx ex vs).map (fun r => lookupKey r "language"), x ∉ ex := by
  induction vs generalizing ex with
  | nil => simp [genVariants_nil]
  | cons v vs ih =>
    by_cases hm : some v ∈ ex
    · rw [genVariants_cons_mem idx ex v vs hm]
      exact ih ex
    · cases hb : idx (baseCodeOf v) with
      | none =>
        rw [genVariants_cons_none idx ex v vs hm hb]
        exact ih ex
      | some b =>
        rw [genVariants_cons_some idx ex v vs b hm hb]
        obtain ⟨hnd, hfresh⟩ := ih (some v :: ex)
        refine ⟨?_, ?_⟩
        · rw [List.map_cons, List.nodup_cons]
          refine ⟨?_, hnd⟩
          rw [lookupKey_synthRecord_language]
          intro hmem
          exact hfresh _ hmem (by simp)
        · intro x hx
          rcases List.mem_cons.mp hx with hx | hx
          · have hx' : x = some v := by
              simpa [lookupKey_synthRecord_language] using hx
            rw [hx']
            exact hm
          · intro hxex
            exact hfresh x hx (by simp [hxex])

/-! ## `find?` helper lemmas -/

theorem find?_congr_of_mem {α : Type} (p q : α → Bool) (l : List α)
    (h : ∀ a ∈ l, p a = q a) : l.find? p = l.find? q := by
  induction l with
  | nil => rfl
  | cons a l ih =>
    have ha := h a (by simp)
    by_cases hp : q a = true
    · rw [List.find?_cons_of_pos _ (ha ▸ hp), List.find?_cons_of_pos _ hp]
    · rw [Bool.not_eq_true] at hp
      rw [List.find?_cons_of_neg _ (by simp [ha, hp]),
        List.find?_cons_of_neg _ (by simp [hp])]
      exact ih fun x hx => h x (by simp [hx])

theorem find?_map_of_mem {α : Type} (f : α → α) (p : α → Bool) (l : List α)
    (h : ∀ a ∈ l, p (f a) = p a) : (l.map f).find? p = (l.find? p).map f := by
  induction l with
  | nil => rfl
  | cons a l ih =>
    have ha := h a (by simp)
    rw [List.map_cons]
    by_cases hp : p a = true
    · rw [List.find?_cons_of_pos _ (by rw [ha, hp]), List.find?_cons_of_pos _ hp]
      rfl
    · rw [Bool.not_eq_true] at hp
      rw [List.find?_cons_of_neg _ (by simp [ha, hp]),
        List.find?_cons_of_neg _ (by simp [hp])]
      exact ih fun x hx => h x (by simp [hx])

/-! ## Success and shape of the current expander -/

theorem expandTranslations_eq_some (T : List Record) (V : VarTable)
    (h : ∀ t ∈ T, hasKey t "language" = true) :
    expandTranslations T V = some (expandCore T V) := by
  unfold expandTranslations
  exact if_pos h

theorem expandTranslations_some_inv (T : List Record) (V : VarTable)
    (E : List Record) (h : expandTranslations T V = some E) :
    (∀ t ∈ T, hasKey t "language" = true) ∧ E = expandCore T V := by
  unfold expandTranslations at h
  by_cases hc : ∀ t ∈ T, hasKey t "language" = true
  · rw [if_pos hc] at h
    exact ⟨hc, (Option.some_inj.mp h).symm⟩
  · rw [if_neg hc] at h
    cases h

theorem lt_length_of_getElem?_eq_some {α : Type} (l : List α) (i : Nat) (a : α)
    (h : l[i]? = some a) : i < l.length := by
  by_contra hlt
  push_neg at hlt
  rw [List.getElem?_eq_none hlt] at h
  cases h

/-- The record at an input position after expansion: the back-filled input
record at the same position. -/
theorem expandCore_getElem_input (T : List Record) (V : VarTable) (i : Nat)
    (t : Record) (ht : T[i]? = some t) :
    (expandCore T V)[i]? = some (backfillRecord (findBase T) t) := by
  have hi : i < T.length := lt_length_of_getElem?_eq_some T i t ht
  unfold expandCore
  rw [List.getElem?_append, if_pos (by simpa using hi), List.getElem?_map, ht]
  rfl

/-! ## Claim theorems -/

/-- C7: Totality of the Expander — for every parsed Translation Set whose
records all carry the mandatory string fields `language` and `language_name`,
and every Variation Table, `expandTranslations` terminates (it is a total Lean
function) and returns a Translation Set without signalling an error (the
result is `some`). -/
theorem expand_total (T : List Record) (V : VarTable)
    (h : ∀ t ∈ T, hasKey t "language" = true ∧ hasKey t "language_name" = true) :
    ∃ E, expandTranslations T V = some E :=
  ⟨expandCore T V, expandTranslations_eq_some T V (fun t ht => (h t ht).1)⟩

theorem expand_total_witness :
    ∃ E, expandTranslations [[("language", "en"), ("language_name", "English")]]
      [("English", ["en-US"])] = some E :=
  expand_total [[("language", "en"), ("language_name", "English")]]
    [("English", ["en-US"])] (by decide)

/-- C4: Non-destructive override — a field already present on an input record
keeps its value through `expand`: the record at the same input position in the
output carries the same value for that field, even when the base record
defines the field with a different value.  (This is the stronger, positional
form: every present field of every input record is preserved.) -/
theorem expand_preserves_variant_fields (T : List Record) (V : VarTable)
    (E : List Record) (i : Nat) (t : Record) (k v : String)
    (hE : expandTranslations T V = some E) (ht : T[i]? = some t)
    (hv : lookupKey t k = some v) :
    ∃ r, E[i]? = some r ∧ lookupKey r k = some v := by
  obtain ⟨hall, hEeq⟩ := expandTranslations_some_inv T V E hE
  subst hEeq
  refine ⟨backfillRecord (findBase T) t, expandCore_getElem_input T V i t ht, ?_⟩
  rw [lookupKey_backfillRecord_of_hasKey _ _ _ (hasKey_of_lookupKey t _ _ hv)]
  exact hv

theorem expand_preserves_variant_fields_witness :
    ∃ r, ([[("language", "en"), ("language_name", "English"), ("a", "1")],
           [("language", "en-US"), ("language_name", "EnUS"), ("a", "2")]] :
        List Record)[1]? = some r ∧ lookupKey r "a" = some "2" :=
  expand_preserves_variant_fields
    [[("language", "en"), ("language_name", "English"), ("a", "1")],
     [("language", "en-US"), ("language_name", "EnUS"), ("a", "2")]]
    [] _ 1 [("language", "en-US"), ("language_name", "EnUS"), ("a", "2")] "a" "2"
    (by decide) (by decide) (by decide)

/-- C3 counterexample: back-fill is not position-independent.  With the
variant `en-US` (fields `{language, a, b}`) placed before the base `en`
(fields `{language, a, b, c}`), the first-wins base index registers the
variant itself as canonical for Base Code `en`, so `expand` copies nothing
onto it: the output equals the input, the variant still lacks field `c`
although the base carries `c = "3"`. -/
theorem backfill_ignores_later_base :
    expandTranslations
        [[("language", "en-US"), ("a", "1"), ("b", "2")],
         [("language", "en"), ("a", "1"), ("b", "2"), ("c", "3")]] [] =
      some [[("language", "en-US"), ("a", "1"), ("b", "2")],
            [("language", "en"), ("a", "1"), ("b", "2"), ("c", "3")]] ∧
    lookupKey [("language", "en-US"), ("a", "1"), ("b", "2")] "c" = none ∧
    lookupKey [("language", "en"), ("a", "1"), ("b", "2"), ("c", "3")] "c" =
      some "3" := by
  exact ⟨by decide, by decide, by decide⟩

/-- C3 (amended): Back-fill completeness when the base record is the first
record of its Base Code — if the base record `b` (whose `language` equals its
own Base Code) is the record the first-wins base index holds for that Base
Code, then a variant record of that Base Code receives every field of `b` it
was missing, with `b`'s value; fields it already had are unaffected (see
`expand_preserves_variant_fields`).  The original claim's
"regardless of the relative positions" is refuted by
`backfill_ignores_later_base`. -/
theorem backfill_completeness_of_base_first (T : List Record) (V : VarTable)
    (E : List Record) (i : Nat) (t b : Record) (lt k vb : String)
    (hE : expandTranslations T V = some E)
    (ht : T[i]? = some t)
    (hlt : lookupKey t "language" = some lt)
    (hfirst : findBase T (baseCodeOf lt) = some b)
    (_hbase : lookupKey b "language" = some (baseCodeOf lt))
    (hvar : lt ≠ baseCodeOf lt)
    (habs : hasKey t k = false)
    (hval : lookupKey b k = some vb) :
    ∃ r, E[i]? = some r ∧ lookupKey r k = some vb := by
  obtain ⟨hall, hEeq⟩ := expandTranslations_some_inv T V E hE
  subst hEeq
  refine ⟨backfillRecord (findBase T) t, expandCore_getElem_input T V i t ht, ?_⟩
  rw [backfillRecord_of_variant (findBase T) t lt b hlt hfirst hvar,
    lookupKey_backfillFrom_of_not_hasKey b t k habs]
  exact hval

theorem backfill_completeness_of_base_first_witness :
    ∃ r, ([[("language", "en"), ("language_name", "English"), ("a", "1"), ("c", "3")],
           [("language", "en-US"), ("language_name", "EnUS"), ("a", "2"), ("c", "3")]] :
        List Record)[1]? = some r ∧ lookupKey r "c" = some "3" :=
  backfill_completeness_of_base_first
    [[("language", "en"), ("language_name", "English"), ("a", "1"), ("c", "3")],
     [("language", "en-US"), ("language_name", "EnUS"), ("a", "2")]]
    [] _ 1 [("language", "en-US"), ("language_name", "EnUS"), ("a", "2")]
    [("language", "en"), ("language_name", "English"), ("a", "1"), ("c", "3")]
    "en-US" "c" "3"
    (by decide) (by decide) (by decide) (by decide) (by decide) (by decide)
    (by decide) (by decide)

/-- C5 counterexample: a variant code whose Base Code has no base record
(no record whose `language` equals the Base Code) can still produce a new
record.  Here `T` holds only the variant record `fr-CA` — its `language` is
`"fr-CA"`, not `"fr"`, so there is no base record for `fr` — yet the table
code `fr-FR` is synthesized from the `fr-CA` record, because the first-wins
base index registers `fr-CA` under Base Code `fr`. -/
theorem variant_synthesized_without_base_record :
    expandTranslations [[("language", "fr-CA"), ("language_name", "French CA")]]
        [("French", ["fr-FR"])] =
      some [[("language", "fr-CA"), ("language_name", "French CA")],
            [("language", "fr-FR"), ("language_name", "French CA (fr-FR)")]] ∧
    lookupKey [("language", "fr-CA"), ("language_name", "French CA")] "language" =
      some "fr-CA" := by
  exact ⟨by decide, by decide⟩

/-- C5 (amended): Skip-without-base-code — a variant code `v` listed in the
Variation Table whose Base Code is the Base Code of no record of `T` at all
(so the first-wins base index has no entry for it) produces no record: no
output record carries `language = v`.  No error is raised for it: `expand`
already succeeded (`some E`).  The original claim's weaker side condition
"no record whose `language` equals the Base Code" is refuted by
`variant_synthesized_without_base_record`. -/
theorem skip_without_base_code (T : List Record) (V : VarTable)
    (E : List Record) (v : String)
    (hE : expandTranslations T V = some E)
    (hnb : ∀ t ∈ T, ∀ l, lookupKey t "language" = some l →
      baseCodeOf l ≠ baseCodeOf v) :
    ∀ r ∈ E, lookupKey r "language" ≠ some v := by
  obtain ⟨hall, hEeq⟩ := expandTranslations_some_inv T V E hE
  subst hEeq
  intro r hr hlang
  unfold expandCore at hr
  rcases List.mem_append.mp hr with hr | hr
  · obtain ⟨t, htmem, rfl⟩ := List.mem_map.mp hr
    rw [backfillRecord_language] at hlang
    exact hnb t htmem v hlang rfl
  · obtain ⟨w, _, b, hb, rfl⟩ := genVariants_mem _ _ _ r hr
    rw [lookupKey_synthRecord_language] at hlang
    have hwv : w = v := Option.some_inj.mp hlang
    subst hwv
    have hmem := List.mem_of_find?_eq_some hb
    have hpred := List.find?_some hb
    rw [beq_iff_eq] at hpred
    cases hl : lookupKey b "language" with
    | none => rw [hl] at hpred; cases hpred
    | some l =>
      rw [hl] at hpred
      exact hnb b hmem l hl (Option.some_inj.mp hpred)

theorem skip_without_base_code_witness :
    lookupKey [("language", "en"), ("language_name", "English")] "language" ≠
      some "fr-FR" :=
  skip_without_base_code [[("language", "en"), ("language_name", "English")]]
    [("French", ["fr-FR"])] [[("language", "en"), ("language_name", "English")]]
    "fr-FR" (by decide) (by decide)
    [("language", "en"), ("language_name", "English")] (by decide)

/-- C2: Uniqueness preservation — if no two input records share a `language`
value, no two output records do: the back-fill pass never changes `language`,
and the generation pass only emits codes absent from the (incrementally
updated) existing-language set. -/
theorem expand_preserves_unique_languages (T : List Record) (V : VarTable)
    (E : List Record) (hE : expandTranslations T V = some E)
    (hnd : (T.map (fun t => lookupKey t "language")).Nodup) :
    (E.map (fun t => lookupKey t "language")).Nodup := by
  obtain ⟨hall, hEeq⟩ := expandTranslations_some_inv T V E hE
  subst hEeq
  unfold expandCore
  rw [List.map_append]
  have hmap : (T.map (backfillRecord (findBase T))).map
        (fun t => lookupKey t "language") =
      T.map (fun t => lookupKey t "language") := by
    rw [List.map_map]
    exact List.map_congr_left (fun t _ => backfillRecord_language (findBase T) t)
  rw [hmap]
  obtain ⟨hnd2, hfresh⟩ := genVariants_langs_nodup_fresh (findBase T)
    (T.map (fun t => lookupKey t "language")) (allVariants V)
  rw [List.nodup_append]
  exact ⟨hnd, hnd2, fun x h1 h2 => hfresh x h2 h1⟩

theorem expand_preserves_unique_languages_witness :
    (([[("language", "en"), ("language_name", "English")],
       [("language", "en-US"), ("language_name", "English (en-US)")]] :
        List Record).map (fun t => lookupKey t "language")).Nodup :=
  expand_preserves_unique_languages
    [[("language", "en"), ("language_name", "English")]]
    [("English", ["en-US"])] _ (by decide) (by decide)

theorem mem_of_getElem?_eq_some {α : Type} {l : List α} {i : Nat} {a : α}
    (h : l[i]? = some a) : a ∈ l := by
  have hi : i < l.length := lt_length_of_getElem?_eq_some l i a h
  rw [List.getElem?_eq_getElem hi] at h
  exact (Option.some_inj.mp h) ▸ List.getElem_mem hi

/-- C6: Naming convention and end-to-end expansion.  First part: every record
beyond the input positions (the synthesized variants) carries some table code
`v` as `language`, is derived from the base-index entry `b` of `v`'s Base
Code, and its `language_name` is the base's `language_name` unchanged when
`v` equals its Base Code, and `"{base} ({v})"` otherwise.  Second part: the
spec's concrete scenario — one `en` record with the table
`{"English": ["en", "en-US", "en-GB"]}` yields exactly the original plus
`en-US` and `en-GB`, titles copied and names parenthesized. -/
theorem synth_naming_and_example :
    (∀ (T : List Record) (V : VarTable) (E : List Record) (j : Nat) (r : Record),
      expandTranslations T V = some E → E[T.length + j]? = some r →
      ∃ v b, v ∈ allVariants V ∧ findBase T (baseCodeOf v) = some b ∧
        lookupKey r "language" = some v ∧
        ∀ nm, lookupKey b "language_name" = some nm →
          lookupKey r "language_name" =
            some (if v = baseCodeOf v then nm else nm ++ " (" ++ v ++ ")")) ∧
    expandTranslations
        [[("language", "en"), ("language_name", "English"), ("title", "Hi")]]
        [("English", ["en", "en-US", "en-GB"])] =
      some [[("language", "en"), ("language_name", "English"), ("title", "Hi")],
            [("language", "en-US"), ("language_name", "English (en-US)"),
             ("title", "Hi")],
            [("language", "en-GB"), ("language_name", "English (en-GB)"),
             ("title", "Hi")]] := by
  constructor
  · intro T V E j r hE hr
    obtain ⟨hall, hEeq⟩ := expandTranslations_some_inv T V E hE
    subst hEeq
    unfold expandCore at hr
    rw [List.getElem?_append] at hr
    rw [if_neg (by simp)] at hr
    rw [List.length_map] at hr
    have hj : T.length + j - T.length = j := by omega
    rw [hj] at hr
    have hmem := mem_of_getElem?_eq_some hr
    obtain ⟨v, hv, b, hb, rfl⟩ := genVariants_mem _ _ _ r hmem
    refine ⟨v, b, hv, hb, lookupKey_synthRecord_language b v, ?_⟩
    intro nm hnm
    rw [lookupKey_synthRecord_language_name, hnm]
    rfl
  · decide

theorem synth_naming_and_example_witness :
    (∃ v b, v ∈ allVariants [("English", ["en", "en-US", "en-GB"])] ∧
      findBase [[("language", "en"), ("language_name", "English"), ("title", "Hi")]]
        (baseCodeOf v) = some b ∧
      lookupKey [("language", "en-US"), ("language_name", "English (en-US)"),
        ("title", "Hi")] "language" = some v ∧
      ∀ nm, lookupKey b "language_name" = some nm →
        lookupKey [("language", "en-US"), ("language_name", "English (en-US)"),
          ("title", "Hi")] "language_name" =
          some (if v = baseCodeOf v then nm else nm ++ " (" ++ v ++ ")")) ∧
    expandTranslations
        [[("language", "en"), ("language_name", "English"), ("title", "Hi")]]
        [("English", ["en", "en-US", "en-GB"])] =
      some [[("language", "en"), ("language_name", "English"), ("title", "Hi")],
            [("language", "en-US"), ("language_name", "English (en-US)"),
             ("title", "Hi")],
            [("language", "en-GB"), ("language_name", "English (en-GB)"),
             ("title", "Hi")]] :=
  ⟨synth_naming_and_example.1
      [[("language", "en"), ("language_name", "English"), ("title", "Hi")]]
      [("English", ["en", "en-US", "en-GB"])]
      [[("language", "en"), ("language_name", "English"), ("title", "Hi")],
       [("language", "en-US"), ("language_name", "English (en-US)"), ("title", "Hi")],
       [("language", "en-GB"), ("language_name", "English (en-GB)"), ("title", "Hi")]] 0
      [("language", "en-US"), ("language_name", "English (en-US)"), ("title", "Hi")]
      (by decide) (by decide),
    synth_naming_and_example.2⟩

/-- C8: Validator error aggregation.  First part, for every directory
listing: `validateDirectory` returns exactly one result entry per qualifying
(`.json`) file and never fails (it is a total function); every `valid: false`
entry carries a non-empty error description.  Second part, the spec's
concrete scenario: one well-formed file and one file with a trailing comma
yield two entries, exactly one of them invalid with a non-empty error. -/
theorem validator_aggregates :
    (∀ (d : String) (files : List (String × String)),
      (validateDirectory d files).length =
        (files.filter (fun fc => strEndsWith fc.1 ".json")).length ∧
      ∀ r ∈ validateDirectory d files, r.valid = false →
        ∃ m, r.error = some m ∧ m ≠ "") ∧
    validateDirectory "dir" [("good.json", "[1]"), ("bad.json", "[1,]")] =
      [⟨true, "dir/good.json", none⟩,
       ⟨false, "dir/bad.json", some "Unexpected token in JSON"⟩] := by
  constructor
  · intro d files
    constructor
    · unfold validateDirectory
      rw [List.length_map]
    · intro r hr hvalid
      unfold validateDirectory at hr
      obtain ⟨fc, _, rfl⟩ := List.mem_map.mp hr
      by_cases hp : jsonParse fc.2 = true
      · simp [validateJSON, hp] at hvalid
      · rw [Bool.not_eq_true] at hp
        refine ⟨"Unexpected token in JSON", ?_, by decide⟩
        simp [validateJSON, hp]
  · decide

theorem validator_aggregates_witness :
    ((validateDirectory "dir" [("bad.json", "[1,]")]).length =
      ([("bad.json", "[1,]")].filter (fun fc => strEndsWith fc.1 ".json")).length) ∧
    (∃ m, (⟨false, "dir/bad.json", some "Unexpected token in JSON"⟩ : VResult).error =
      some m ∧ m ≠ "") :=
  ⟨(validator_aggregates.1 "dir" [("bad.json", "[1,]")]).1,
   (validator_aggregates.1 "dir" [("bad.json", "[1,]")]).2
     ⟨false, "dir/bad.json", some "Unexpected token in JSON"⟩ (by decide) (by decide)⟩

/-- C9 counterexample: the manifest exclusion does not apply to the
Validator.  For the listing `["a.json", "package.json"]` the Loader's
qualifying set drops `package.json`, but the Validator's keeps it, and
`validateDirectory` produces a result entry for it (two entries, not one). -/
theorem validator_includes_package_json :
    loaderJsonFiles ["a.json", "package.json"] = ["a.json"] ∧
    validatorJsonFiles ["a.json", "package.json"] = ["a.json", "package.json"] ∧
    (validateDirectory "." [("a.json", "[]"), ("package.json", "{}")]).length = 2 := by
  exact ⟨by decide, by decide, by decide⟩

theorem map_fst_filter_comm {α β : Type} (q : α → Bool) (l : List (α × β)) :
    (l.filter (fun fc => q fc.1)).map Prod.fst = (l.map Prod.fst).filter q := by
  induction l with
  | nil => rfl
  | cons fc rest ih =>
    by_cases h : q fc.1 = true <;> simp [List.filter_cons, h, ih]

theorem loadJSONFilesGo_ok (l out : List (String × String))
    (h : loadJSONFilesGo l = Except.ok out) : out = l := by
  induction l generalizing out with
  | nil =>
    unfold loadJSONFilesGo at h
    exact (Except.ok.injEq _ _ ▸ h).symm
  | cons fc rest ih =>
    unfold loadJSONFilesGo at h
    by_cases hp : jsonParse fc.2 = true
    · rw [if_pos hp] at h
      cases hgo : loadJSONFilesGo rest with
      | ok out' =>
        rw [hgo] at h
        have : fc :: out' = out := Except.ok.injEq _ _ ▸ h
        rw [← this, ih out' hgo]
      | error e =>
        rw [hgo] at h
        cases h
    · rw [if_neg hp] at h
      cases h

/-- C9 (amended): the exclusion of the manifest file `package.json` applies
to the Loader only, not to the Validator.  (1) The Loader's qualifying set is
exactly the Validator's minus `package.json`; (2) the Validator's qualifying
set keeps `package.json` whenever it is listed; (3) `validateDirectory`
produces exactly one entry per `.json` file (manifest included), named by its
joined path; (4) a successful `loadJSONFiles` returns exactly the
`.json`-minus-`package.json` files.  The original claim — exclusion applying
to both passes — is refuted by `validator_includes_package_json`. -/
theorem manifest_exclusion_loader_only :
    (∀ files : List String,
      loaderJsonFiles files =
        (validatorJsonFiles files).filter (fun f => f != "package.json")) ∧
    (∀ files : List String, "package.json" ∈ files →
      "package.json" ∈ validatorJsonFiles files) ∧
    (∀ (d : String) (files : List (String × String)),
      (validateDirectory d files).map VResult.file =
        (validatorJsonFiles (files.map Prod.fst)).map (pathJoin d)) ∧
    (∀ (files out : List (String × String)),
      loadJSONFiles files = Except.ok out →
      out.map Prod.fst = loaderJsonFiles (files.map Prod.fst)) := by
  refine ⟨?_, ?_, ?_, ?_⟩
  · intro files
    unfold loaderJsonFiles validatorJsonFiles
    rw [List.filter_filter]
    exact List.filter_congr (fun a _ => by rw [Bool.and_comm])
  · intro files hmem
    unfold validatorJsonFiles
    rw [List.mem_filter]
    exact ⟨hmem, by decide⟩
  · intro d files
    unfold validateDirectory validatorJsonFiles
    rw [List.map_map, ← map_fst_filter_comm, List.map_map]
    refine List.map_congr_left (fun fc _ => ?_)
    show (validateJSON (pathJoin d fc.1) fc.2).file = pathJoin d fc.1
    unfold validateJSON
    split <;> rfl
  · intro files out h
    unfold loadJSONFiles at h
    rw [loadJSONFilesGo_ok _ _ h]
    unfold loaderJsonFiles
    exact map_fst_filter_comm
      (fun f => strEndsWith f ".json" && f != "package.json") files

theorem manifest_exclusion_loader_only_witness :
    (loaderJsonFiles ["a.json", "package.json"] =
      (validatorJsonFiles ["a.json", "package.json"]).filter
        (fun f => f != "package.json")) ∧
    "package.json" ∈ validatorJsonFiles ["a.json", "package.json"] ∧
    ([("a.json", "[]")] : List (String × String)).map Prod.fst =
      loaderJsonFiles ([("a.json", "[]"), ("package.json", "{}")].map Prod.fst) :=
  ⟨manifest_exclusion_loader_only.1 ["a.json", "package.json"],
   manifest_exclusion_loader_only.2.1 ["a.json", "package.json"] (by decide),
   manifest_exclusion_loader_only.2.2.2 [("a.json", "[]"), ("package.json", "{}")]
     [("a.json", "[]")] (by rfl)⟩

/-! ## Legacy generation-pass lemmas and C10 -/

theorem genVariantsLegacy_cons_mem (T : List Record)
    (ex : List (Option String)) (v : String) (vs : List String)
    (h : some v ∈ ex) :
    genVariantsLegacy T ex (v :: vs) = genVariantsLegacy T ex vs := by
  simp only [genVariantsLegacy, if_pos h]

theorem genVariantsLegacy_cons_none (T : List Record)
    (ex : List (Option String)) (v : String) (vs : List String)
    (h : some v ∉ ex) (hb : findBaseLegacy T (baseCodeOf v) = none) :
    genVariantsLegacy T ex (v :: vs) = genVariantsLegacy T ex vs := by
  simp only [genVariantsLegacy, if_neg h, hb]

theorem genVariantsLegacy_cons_some (T : List Record)
    (ex : List (Option String)) (v : String) (vs : List String) (b : Record)
    (h : some v ∉ ex) (hb : findBaseLegacy T (baseCodeOf v) = some b) :
    genVariantsLegacy T ex (v :: vs) =
      synthRecord b v :: genVariantsLegacy T (some v :: ex) vs := by
  simp only [genVariantsLegacy, if_neg h, hb]

/-- When every record's `language` is its own Base Code, the first-wins base
index (keyed by Base Code) and the legacy exact-`language` lookup agree. -/
theorem findBase_eq_legacy (T : List Record) (c : String)
    (h : ∀ t ∈ T, (lookupKey t "language").map baseCodeOf =
      lookupKey t "language" ∧ hasKey t "language" = true) :
    findBase T c = findBaseLegacy T c := by
  unfold findBase findBaseLegacy
  refine find?_congr_of_mem _ _ T (fun t ht => ?_)
  rw [(h t ht).1]

theorem genVariants_eq_legacy (T : List Record) (ex : List (Option String))
    (vs : List String) (h : ∀ c, findBase T c = findBaseLegacy T c) :
    genVariants (findBase T) ex vs = genVariantsLegacy T ex vs := by
  induction vs generalizing ex with
  | nil => rfl
  | cons v vs ih =>
    by_cases hm : some v ∈ ex
    · rw [genVariants_cons_mem _ _ _ _ hm, genVariantsLegacy_cons_mem _ _ _ _ hm]
      exact ih ex
    · cases hb : findBase T (baseCodeOf v) with
      | none =>
        rw [genVariants_cons_none _ _ _ _ hm hb,
          genVariantsLegacy_cons_none _ _ _ _ hm (h _ ▸ hb)]
        exact ih ex
      | some b =>
        rw [genVariants_cons_some _ _ _ _ b hm hb,
          genVariantsLegacy_cons_some _ _ _ _ b hm (h _ ▸ hb), ih (some v :: ex)]

/-- C10: Legacy/current expander equivalence without back-fill work — on a
Translation Set whose records all carry a `language` equal to its own Base
Code (no hyphen) with no duplicate `language` values, the current expander
(first-wins base index plus back-fill pass) succeeds and returns exactly the
legacy expander's output: same records, same fields and values, same order. -/
theorem legacy_current_equiv (T : List Record) (V : VarTable)
    (h1 : ∀ t ∈ T, (lookupKey t "language").map baseCodeOf =
      lookupKey t "language" ∧ hasKey t "language" = true)
    (_hnd : (T.map (fun t => lookupKey t "language")).Nodup) :
    expandTranslations T V = some (expandTranslationsLegacy T V) := by
  rw [expandTranslations_eq_some T V (fun t ht => (h1 t ht).2)]
  congr 1
  unfold expandCore expandTranslationsLegacy
  have hmap : T.map (backfillRecord (findBase T)) = T := by
    have hcongr : T.map (backfillRecord (findBase T)) = T.map id := by
      refine List.map_congr_left (fun t ht => ?_)
      obtain ⟨hbc, hhas⟩ := h1 t ht
      cases hl : lookupKey t "language" with
      | none => exact backfillRecord_of_lang_none _ t hl
      | some l =>
        rw [hl] at hbc
        have hll : baseCodeOf l = l := by
          have := Option.some_inj.mp hbc
          exact this
        exact backfillRecord_of_self _ t l hl hll.symm
    rw [hcongr, List.map_id]
  rw [hmap]
  congr 1
  exact genVariants_eq_legacy T _ _ (fun c => findBase_eq_legacy T c h1)

theorem legacy_current_equiv_witness :
    expandTranslations [[("language", "en"), ("language_name", "English")]]
        [("English", ["en", "en-US"])] =
      some (expandTranslationsLegacy
        [[("language", "en"), ("language_name", "English")]]
        [("English", ["en", "en-US"])]) :=
  legacy_current_equiv [[("language", "en"), ("language_name", "English")]]
    [("English", ["en", "en-US"])] (by decide) (by decide)

/-! ## Idempotence machinery -/

theorem hasKey_of_mem (t : Record) (kv : String × String) (h : kv ∈ t) :
    hasKey t kv.1 = true := by
  induction t with
  | nil => simp at h
  | cons kv' rest ih =>
    obtain ⟨k1, v1⟩ := kv'
    rw [hasKey_cons]
    rcases List.mem_cons.mp h with h | h
    · subst h
      simp
    · rw [ih h]
      simp

theorem backfillFrom_all_of_base (b t : Record) :
    ∀ kv ∈ b, hasKey (backfillFrom b t) kv.1 = true := by
  intro kv hkv
  rw [hasKey_backfillFrom, hasKey_of_mem b kv hkv]
  simp

theorem backfillFrom_idem (b t : Record) :
    backfillFrom b (backfillFrom b t) = backfillFrom b t :=
  backfillFrom_of_all_hasKey b _ (backfillFrom_all_of_base b t)

/-- Back-filling one record twice against the same index changes nothing the
second time. -/
theorem backfillRecord_idem (idx : String → Option Record) (t : Record) :
    backfillRecord idx (backfillRecord idx t) = backfillRecord idx t := by
  cases hl : lookupKey t "language" with
  | none =>
    rw [backfillRecord_of_lang_none idx t hl, backfillRecord_of_lang_none idx t hl]
  | some l =>
    by_cases hc : l = baseCodeOf l
    · rw [backfillRecord_of_self idx t l hl hc, backfillRecord_of_self idx t l hl hc]
    · cases hb : idx (baseCodeOf l) with
      | none =>
        rw [backfillRecord_of_idx_none idx t l hl hb,
          backfillRecord_of_idx_none idx t l hl hb]
      | some b =>
        rw [backfillRecord_of_variant idx t l b hl hb hc]
        have hl2 : lookupKey (backfillFrom b t) "language" = some l := by
          rw [lookupKey_backfillFrom_of_hasKey b t _ (hasKey_of_lookupKey t _ _ hl)]
          exact hl
        rw [backfillRecord_of_variant idx _ l b hl2 hb hc]
        exact backfillFrom_idem b t

/-- A base-index entry is a fixed point of the back-fill pass: it is the first
record of its Base Code, so its back-fill copies from itself. -/
theorem backfillRecord_fixed_of_found (T : List Record) (c : String) (r : Record)
    (h : findBase T c = some r) : backfillRecord (findBase T) r = r := by
  have hpred := List.find?_some h
  rw [beq_iff_eq] at hpred
  cases hl : lookupKey r "language" with
  | none =>
    rw [hl] at hpred
    cases hpred
  | some l =>
    rw [hl] at hpred
    have hbc : baseCodeOf l = c := Option.some_inj.mp hpred
    by_cases hc : l = baseCodeOf l
    · exact backfillRecord_of_self _ r l hl hc
    · rw [backfillRecord_of_variant (findBase T) r l r hl (by rw [hbc]; exact h) hc]
      exact backfillFrom_of_all_hasKey r r (fun kv hkv => hasKey_of_mem r kv hkv)

/-- A synthesized variant is a fixed point of the back-fill pass: it already
carries every field of its base. -/
theorem backfillRecord_synth_fixed (idx : String → Option Record) (b : Record)
    (v : String) (hb : idx (baseCodeOf v) = some b) :
    backfillRecord idx (synthRecord b v) = synthRecord b v := by
  have hl : lookupKey (synthRecord b v) "language" = some v :=
    lookupKey_synthRecord_language b v
  by_cases hc : v = baseCodeOf v
  · exact backfillRecord_of_self idx _ v hl hc
  · rw [backfillRecord_of_variant idx _ v b hl hb hc]
    exact backfillFrom_of_all_hasKey b _ (fun kv hkv =>
      hasKey_synthRecord_of b v kv.1 (hasKey_of_mem b kv hkv))

theorem find?_append_some {α : Type} (p : α → Bool) (l₁ l₂ : List α) (a : α)
    (h : l₁.find? p = some a) : (l₁ ++ l₂).find? p = some a := by
  induction l₁ with
  | nil => cases h
  | cons x l ih =>
    by_cases hp : p x = true
    · rw [List.find?_cons_of_pos _ hp] at h
      rw [List.cons_append, List.find?_cons_of_pos _ hp]
      exact h
    · rw [Bool.not_eq_true] at hp
      rw [List.find?_cons_of_neg _ (by simp [hp])] at h
      rw [List.cons_append, List.find?_cons_of_neg _ (by simp [hp])]
      exact ih h

theorem find?_append_none {α : Type} (p : α → Bool) (l₁ l₂ : List α)
    (h : l₁.find? p = none) : (l₁ ++ l₂).find? p = l₂.find? p := by
  induction l₁ with
  | nil => rfl
  | cons x l ih =>
    by_cases hp : p x = true
    · rw [List.find?_cons_of_pos _ hp] at h
      cases h
    · rw [Bool.not_eq_true] at hp
      rw [List.find?_cons_of_neg _ (by simp [hp])] at h
      rw [List.cons_append, List.find?_cons_of_neg _ (by simp [hp])]
      exact ih h

/-- The unfolding equation of `expandCore`. -/
theorem expandCore_eq (L : List Record) (V : VarTable) :
    expandCore L V =
      L.map (backfillRecord (findBase L)) ++
        genVariants (findBase L) (L.map (fun t => lookupKey t "language"))
          (allVariants V) := rfl

/-- Stability of the base index: running `expand` does not change the first
record found for any Base Code — the back-fill pass keeps every record's
`language` and maps index entries to themselves, and every synthesized record
has a Base Code already indexed. -/
theorem findBase_expandCore (T : List Record) (V : VarTable) (c : String) :
    findBase (expandCore T V) c = findBase T c := by
  have hmapfind : findBase (T.map (backfillRecord (findBase T))) c =
      (findBase T c).map (backfillRecord (findBase T)) := by
    unfold findBase
    exact find?_map_of_mem _ _ T (fun t _ => by rw [backfillRecord_language])
  rw [expandCore_eq]
  cases hb : findBase T c with
  | some r =>
    have h1 : findBase (T.map (backfillRecord (findBase T))) c = some r := by
      rw [hmapfind, hb, Option.map_some', backfillRecord_fixed_of_found T c r hb]
    unfold findBase at h1 ⊢
    exact find?_append_some _ _ _ r h1
  | none =>
    have h1 : findBase (T.map (backfillRecord (findBase T))) c = none := by
      rw [hmapfind, hb]
      rfl
    have h2 : findBase (genVariants (findBase T)
        (T.map (fun t => lookupKey t "language")) (allVariants V)) c = none := by
      unfold findBase
      rw [List.find?_eq_none]
      intro r hr hpred
      obtain ⟨v, _, b, hbv, rfl⟩ := genVariants_mem _ _ _ r hr
      rw [lookupKey_synthRecord_language, Option.map_some', beq_iff_eq] at hpred
      have hvc : baseCodeOf v = c := Option.some_inj.mp hpred
      rw [hvc] at hbv
      have hbv' : findBase T c = some b := hbv
      rw [hb] at hbv'
      cases hbv'
    unfold findBase at h1 h2 ⊢
    rw [find?_append_none _ _ _ h1]
    exact h2

/-- C1: Idempotence of expansion — running `expand` on its own output with
the same Variation Table changes nothing: if `expand(T, V) = some E` then
`expand(E, V) = some E`, record for record and field for field, with no
additional records.  The base index is stable across runs
(`findBase_expandCore`), the back-fill pass is idempotent on the input
records and fixes the synthesized variants, and every table code with a
base-index entry is already in the second run's existing-language set, so the
second generation pass emits nothing. -/
theorem expand_idempotent (T : List Record) (V : VarTable) (E : List Record)
    (hE : expandTranslations T V = some E) :
    expandTranslations E V = some E := by
  obtain ⟨hall, hEeq⟩ := expandTranslations_some_inv T V E hE
  subst hEeq
  have hallE : ∀ r ∈ expandCore T V, hasKey r "language" = true := by
    intro r hr
    rw [expandCore_eq] at hr
    rcases List.mem_append.mp hr with hr | hr
    · obtain ⟨t, ht, rfl⟩ := List.mem_map.mp hr
      exact hasKey_backfillRecord_of_hasKey _ t _ (hall t ht)
    · obtain ⟨v, _, b, _, rfl⟩ := genVariants_mem _ _ _ r hr
      exact hasKey_of_lookupKey _ _ _ (lookupKey_synthRecord_language b v)
  rw [expandTranslations_eq_some _ V hallE]
  congr 1
  have hidx : findBase (expandCore T V) = findBase T :=
    funext (fun c => findBase_expandCore T V c)
  have hlangsmap : (T.map (backfillRecord (findBase T))).map
      (fun t => lookupKey t "language") =
      T.map (fun t => lookupKey t "language") := by
    rw [List.map_map]
    exact List.map_congr_left (fun t _ => backfillRecord_language _ t)
  have hexE : (expandCore T V).map (fun t => lookupKey t "language") =
      T.map (fun t => lookupKey t "language") ++
        (genVariants (findBase T) (T.map (fun t => lookupKey t "language"))
          (allVariants V)).map (fun t => lookupKey t "language") := by
    rw [expandCore_eq, List.map_append, hlangsmap]
  have hgennil : genVariants (findBase T)
      ((expandCore T V).map (fun t => lookupKey t "language"))
      (allVariants V) = [] := by
    refine genVariants_eq_nil _ _ _ (fun v hv => ?_)
    cases hb : findBase T (baseCodeOf v) with
    | none => exact Or.inr rfl
    | some b =>
      refine Or.inl ?_
      rw [hexE]
      rcases genVariants_covers (findBase T)
          (T.map (fun t => lookupKey t "language")) (allVariants V) v b hv hb with
        hin | ⟨r, hrgen, hlang⟩
      · exact List.mem_append_left _ hin
      · exact List.mem_append_right _ (List.mem_map.mpr ⟨r, hrgen, hlang⟩)
  rw [expandCore_eq (expandCore T V) V, hidx, hgennil, List.append_nil]
  rw [expandCore_eq T V, List.map_append]
  congr 1
  · rw [List.map_map]
    exact List.map_congr_left (fun t _ => backfillRecord_idem _ t)
  · have hfix : (genVariants (findBase T)
        (T.map (fun t => lookupKey t "language"))
        (allVariants V)).map (backfillRecord (findBase T)) =
        (genVariants (findBase T) (T.map (fun t => lookupKey t "language"))
          (allVariants V)).map id := by
      refine List.map_congr_left (fun r hr => ?_)
      obtain ⟨v, _, b, hb, rfl⟩ := genVariants_mem _ _ _ r hr
      exact backfillRecord_synth_fixed _ b v hb
    rw [hfix, List.map_id]

theorem expand_idempotent_witness :
    expandTranslations
        [[("language", "en"), ("language_name", "English"), ("title", "Hi")],
         [("language", "en-US"), ("language_name", "English (en-US)"),
          ("title", "Hi")]]
        [("English", ["en", "en-US"])] =
      some [[("language", "en"), ("language_name", "English"), ("title", "Hi")],
            [("language", "en-US"), ("language_name", "English (en-US)"),
             ("title", "Hi")]] :=
  expand_idempotent
    [[("language", "en"), ("language_name", "English"), ("title", "Hi")]]
    [("English", ["en", "en-US"])]
    [[("language", "en"), ("language_name", "English"), ("title", "Hi")],
     [("language", "en-US"), ("language_name", "English (en-US)"), ("title", "Hi")]]
    (by decide)
